import Mathlib

/-!
Verification of the `wire` wireframe-3d library (Go) against its
natural-language specification.

The embedding is shallow: Go structs become Lean structures, float64
arithmetic is modelled over `ℚ` (the claims under scrutiny are algebraic,
not about floating-point rounding), pointers into the shared point heap
are modelled as indices (`Nat`) into an append-only `Store`, and fallible
operations (Go slice-index panics, file-parse errors) return `Option` /
explicit result types.

Sources embedded (file / symbol names follow the Go source):
  * point.go / part_007 : `Point`, `Point.Project`, `Point.Visible`
  * part_000            : `Shape`, `Shape.Clone`, `Shape.Cull`,
                          `Shape.CullBox`, `Shape.Subdivide`,
                          `Shape.ThinPoints`, `Shape.AddSegmentByIndex`
  * pointlist.go        : `PointList.Clone`, `PointList.Get`,
                          `PointList.Cull`, `PointList.CullBox`
  * world.go / part_006 : `worldDef`, `FogAmount`, `ApplyFogAndWaterLevel`
  * segment.go / part_009 : `Segment.Stroke` (both source variants)
  * part_010            : `LoadShape`, `parseCoords`, `parseIndices`
-/

/-- A 3d point: coordinates `x y z` plus the cached projection fields
`px py scaling` (Go `Point` struct, point.go). -/
structure Point where
  x : ℚ
  y : ℚ
  z : ℚ
  px : ℚ
  py : ℚ
  scaling : ℚ
deriving DecidableEq, Repr

instance : Inhabited Point := ⟨⟨0, 0, 0, 0, 0, 0⟩⟩

/-- The heap of allocated points.  Allocation only ever appends, so a
a pointer index stays valid and two distinct allocations never alias. -/
structure Store where
  pts : List Point
deriving DecidableEq, Repr

/-- Dereference a point pointer, i.e. an index into the store (reads the default point on a dangling
reference; theorems that need it carry a validity hypothesis). -/
def deref (st : Store) (r : Nat) : Point :=
  st.pts.getD r default

/-- Allocate a new point on the heap, returning the new heap and the
fresh pointer. -/
def alloc (st : Store) (p : Point) : Store × Nat :=
  (⟨st.pts ++ [p]⟩, st.pts.length)

/-- Overwrite the point a pointer refers to (models Go in-place point
mutation through a shared pointer). -/
def setPt (st : Store) (r : Nat) (v : Point) : Store :=
  ⟨st.pts.set r v⟩

/-- A segment holds two point *references* (Go `Segment{PointA, PointB *Point}`,
segment.go / part_009). -/
structure Segment where
  a : Nat
  b : Nat
deriving DecidableEq, Repr

/-- A shape: an ordered list of point references plus a segment list
(Go `Shape{Points PointList; Segments []*Segment}`, part_000). -/
structure Shape where
  points : List Nat
  segments : List Segment
deriving DecidableEq, Repr

/-- The process-wide scene/camera state (`worldDef`).  The Go source has
several historical variants of this struct; this structure carries the
union of the fields the embedded functions read (`FL CX CY CZ` for
projection, `NearZ FarZ` for visibility, fog/water-level parameters,
current color `R G B`, and the `ScaleLineWidth` flag of the segment.go
variant). -/
structure World where
  FL : ℚ
  CX : ℚ
  CY : ℚ
  CZ : ℚ
  NearZ : ℚ
  FarZ : ℚ
  FogActive : Bool
  NearFog : ℚ
  FarFog : ℚ
  WaterLevelActive : Bool
  WaterLevelTop : ℚ
  WaterLevelBottom : ℚ
  R : ℚ
  G : ℚ
  B : ℚ
  ScaleLineWidth : Bool
deriving DecidableEq, Repr

/-- Go `Point.Project` (point.go lines 201-206 / part_007 lines 130-135):
`scale := world.FL / (world.CZ + p.Z); p.Px = world.CX + p.X*scale;
p.Py = world.CY + p.Y*scale; p.Scaling = scale`. -/
def pointProject (w : World) (p : Point) : Point :=
  let scale := w.FL / (w.CZ + p.z)
  { p with px := w.CX + p.x * scale, py := w.CY + p.y * scale, scaling := scale }

/-- Go `Point.Visible` (point.go lines 217-225 / part_007 lines 146-154):
returns false when `p.Z + world.CZ < world.NearZ`, false when
`p.Z + world.CZ > world.FarZ`, true otherwise. -/
def pointVisible (w : World) (p : Point) : Bool :=
  if p.z + w.CZ < w.NearZ then false
  else if p.z + w.CZ > w.FarZ then false
  else true

/-- Go `PointList.Get` (pointlist.go lines 117-122):
`if index < 0 { index = len(p) - index }; return p[index]`.
The slice access panics when the adjusted index is out of range; the
model returns `none` there. -/
def pointListGet (p : List Nat) (index : ℤ) : Option Nat :=
  let idx : ℤ := if index < 0 then (p.length : ℤ) - index else index
  if 0 ≤ idx ∧ idx < (p.length : ℤ) then some (p.getD idx.toNat 0) else none

/-- The adjusted access position computed by `PointList.Get` before the
slice access (`len(p) - index` for negative `index`). -/
def pointListGetIdx (p : List Nat) (index : ℤ) : ℤ :=
  if index < 0 then (p.length : ℤ) - index else index

instance : Inhabited Segment := ⟨⟨0, 0⟩⟩

/-- Go `Point.Clone` (point.go): returns a fresh point with all six fields
copied (`&Point{p.X, p.Y, p.Z, p.Px, p.Py, p.Scaling}`); the fresh
allocation is performed by the caller through `alloc`. -/
def pointClone (p : Point) : Point :=
  ⟨p.x, p.y, p.z, p.px, p.py, p.scaling⟩

/-- Go `PointList.Clone` (pointlist.go lines 20-26): allocates a clone of
each point in order and collects the fresh pointers. -/
def pointListClone : Store → List Nat → Store × List Nat
  | st, [] => (st, [])
  | st, r :: rest =>
    let a := alloc st (pointClone (deref st r))
    let res := pointListClone a.1 rest
    (res.1, a.2 :: res.2)

/-- Go `slices.Index` (used by `Shape.Clone`): the first index at which the
pointer occurs in the list, or −1 when it does not occur.  Pointer equality
is index equality. -/
def goIndex : List Nat → Nat → ℤ
  | [], _ => -1
  | x :: rest, v =>
    if x = v then 0
    else if goIndex rest v < 0 then -1 else goIndex rest v + 1

/-- Go `Shape.AddSegmentByIndex` (part_000 lines 92-95) as used inside
`Clone`: builds `NewSegment(pts[a], pts[b])`.  The Go slice accesses panic
when an index is out of `[0, len)` (in particular for the −1 produced by a
failed `slices.Index` lookup); the model returns `none` there. -/
def addSegmentByIndex (pts : List Nat) (ia ib : ℤ) : Option Segment :=
  if 0 ≤ ia ∧ ia < (pts.length : ℤ) ∧ 0 ≤ ib ∧ ib < (pts.length : ℤ) then
    some ⟨pts.getD ia.toNat 0, pts.getD ib.toNat 0⟩
  else none

/-- The segment-rebinding loop of Go `Shape.Clone` (part_000 lines 149-158):
for each original segment, look up the positional indices of its endpoints
in the original point list and add a segment over the clone's points at
those indices. -/
def cloneSegs (origPts clonePts : List Nat) : List Segment → Option (List Segment)
  | [] => some []
  | g :: rest =>
    match addSegmentByIndex clonePts (goIndex origPts g.a) (goIndex origPts g.b) with
    | none => none
    | some seg => (cloneSegs origPts clonePts rest).map (seg :: ·)

/-- Go `Shape.Clone` (part_000 lines 149-158): deep-copies the point list,
then rebinds every segment by positional lookup.  `none` models the panic
raised when a segment endpoint is not found in the point list. -/
def shapeClone (st : Store) (s : Shape) : Option (Store × Shape) :=
  let res := pointListClone st s.points
  (cloneSegs s.points res.2 s.segments).map (fun segs => (res.1, ⟨res.2, segs⟩))

/-- One pass bound for `ThinPoints`: the Go loop consumes `take + skip`
indices per outer pass, so `len` passes always suffice; the fuel is only
exhausted in the `take = skip = 0` case, where the Go loop never
terminates. -/
def thinGo (tk sk : Nat) : Nat → List Nat → List Nat
  | 0, _ => []
  | _, [] => []
  | fuel + 1, l => l.take tk ++ thinGo tk sk fuel (l.drop (tk + sk))

/-- Go `Shape.ThinPoints` (part_000 lines 235-257): keeps `take` points,
discards `skip` points, repeating over the point list; the segment list is
left untouched (the source marks this with
`TODO: remove invalidated segments`). -/
def thinPoints (pts : List Nat) (tk sk : Nat) : List Nat :=
  thinGo tk sk pts.length pts

/-- `ThinPoints` at the shape level: replaces the point list only. -/
def shapeThinPoints (s : Shape) (tk sk : Nat) : Shape :=
  ⟨thinPoints s.points tk sk, s.segments⟩

/-- Go `PointList.Cull` (pointlist.go lines 137-146): keeps exactly the
points satisfying the cull function, in their original order. -/
def pointListCull (st : Store) (pts : List Nat) (f : Point → Bool) : List Nat :=
  pts.filter (fun r => f (deref st r))

/-- Go `Shape.Cull` (part_000 lines 207-216): keeps the segments whose two
endpoints both satisfy the cull function, then culls the point list. -/
def shapeCull (st : Store) (s : Shape) (f : Point → Bool) : Shape :=
  ⟨pointListCull st s.points f,
    s.segments.filter (fun g => f (deref st g.a) && f (deref st g.b))⟩

/-- The box membership test of Go `PointList.CullBox` (pointlist.go lines
155-166): `X >= minX && X <= maxX && Y >= minY && Y <= maxY && Z >= minZ
&& Z <= maxZ`. -/
def inBox (minX minY minZ maxX maxY maxZ : ℚ) (p : Point) : Bool :=
  minX ≤ p.x && p.x ≤ maxX && minY ≤ p.y && p.y ≤ maxY && minZ ≤ p.z && p.z ≤ maxZ

/-- Go `PointList.CullBox` (pointlist.go lines 155-166): keeps the points
inside the axis-aligned box. -/
def pointListCullBox (st : Store) (pts : List Nat)
    (minX minY minZ maxX maxY maxZ : ℚ) : List Nat :=
  pts.filter (fun r => inBox minX minY minZ maxX maxY maxZ (deref st r))

/-- Go `Shape.CullBox` (part_000 lines 227-229): culls only the point list
and leaves the segment list untouched (the source marks the missing
cascade with `TODO: cull segments not just points`). -/
def shapeCullBox (st : Store) (s : Shape)
    (minX minY minZ maxX maxY maxZ : ℚ) : Shape :=
  ⟨pointListCullBox st s.points minX minY minZ maxX maxY maxZ, s.segments⟩

/-- `blmath.Lerp(t, min, max)` of the bitlib dependency (external to this
repository, modelled from its documented semantics): `min + (max-min)*t`. -/
def blLerp (t mn mx : ℚ) : ℚ :=
  mn + (mx - mn) * t

/-- `blmath.Norm(value, min, max)` of the bitlib dependency:
`(value - min) / (max - min)`. -/
def blNorm (v mn mx : ℚ) : ℚ :=
  (v - mn) / (mx - mn)

/-- `blmath.Map(srcValue, srcMin, srcMax, dstMin, dstMax)` of the bitlib
dependency: normalize in the source range, lerp into the target range. -/
def blMap (v srcMin srcMax dstMin dstMax : ℚ) : ℚ :=
  blLerp (blNorm v srcMin srcMax) dstMin dstMax

/-- `blmath.Clamp(value, min, max)` of the bitlib dependency. -/
def blClamp (v mn mx : ℚ) : ℚ :=
  if v < mn then mn else if v > mx then mx else v

/-- An RGBA color (`blcolor.RGBA` of the bitlib dependency). -/
structure Color where
  r : ℚ
  g : ℚ
  b : ℚ
  a : ℚ
deriving DecidableEq, Repr

/-- One primitive call on the drawing contract (the `Context` interface). -/
inductive DrawOp where
  | moveTo (x y : ℚ)
  | lineTo (x y : ℚ)
  | stroke
  | setLineWidth (w : ℚ)
  | setSourceColor (c : Color)
deriving DecidableEq, Repr

/-- The state of the drawing contract: current line width, current source
color, and the trace of primitive calls issued so far. -/
structure Ctx where
  lineWidth : ℚ
  color : Color
  ops : List DrawOp
deriving DecidableEq, Repr

/-- `Context.SetLineWidth`. -/
def ctxSetLineWidth (c : Ctx) (w : ℚ) : Ctx :=
  ⟨w, c.color, c.ops ++ [DrawOp.setLineWidth w]⟩

/-- `Context.SetSourceColor`. -/
def ctxSetSourceColor (c : Ctx) (col : Color) : Ctx :=
  ⟨c.lineWidth, col, c.ops ++ [DrawOp.setSourceColor col]⟩

/-- `Context.MoveTo`. -/
def ctxMoveTo (c : Ctx) (x y : ℚ) : Ctx :=
  ⟨c.lineWidth, c.color, c.ops ++ [DrawOp.moveTo x y]⟩

/-- `Context.LineTo`. -/
def ctxLineTo (c : Ctx) (x y : ℚ) : Ctx :=
  ⟨c.lineWidth, c.color, c.ops ++ [DrawOp.lineTo x y]⟩

/-- `Context.Stroke`. -/
def ctxStroke (c : Ctx) : Ctx :=
  ⟨c.lineWidth, c.color, c.ops ++ [DrawOp.stroke]⟩

/-- Go `FogAmount` (world.go lines 73-79): 1 when fog is off, otherwise the
z-depth mapped from `NearFog` (1) to `FarFog` (0) and clamped to [0,1]. -/
def fogAmount (w : World) (objectZ : ℚ) : ℚ :=
  if !w.FogActive then 1
  else blClamp (blMap (objectZ + w.CZ) w.NearFog w.FarFog 1 0) 0 1

/-- The attenuation factor computed inside Go `ApplyFogAndWaterLevel`
(part_006 lines 107-120): start at 1, replace by the fog map when fog is
active, take the minimum with the water-level map when water level is
active, then clamp to [0,1]. -/
def fogWaterFactor (w : World) (objectY objectZ : ℚ) : ℚ :=
  let fog0 := if w.FogActive then blMap (objectZ + w.CZ) w.NearFog w.FarFog 1 0 else 1
  let fog1 := if w.WaterLevelActive
    then min fog0 (blMap objectY w.WaterLevelTop w.WaterLevelBottom 1 0)
    else fog0
  blClamp fog1 0 1

/-- Go `ApplyFogAndWaterLevel` (part_006 lines 107-120): sets the source
color to the base RGB with the attenuation factor as alpha, but only when
the factor is below 1. -/
def applyFogAndWaterLevel (w : World) (objectY objectZ : ℚ) (c : Ctx) : Ctx :=
  let fog := fogWaterFactor w objectY objectZ
  if fog < 1 then ctxSetSourceColor c ⟨w.R, w.G, w.B, fog⟩ else c

/-- Go `Segment.Stroke` (part_009 lines 19-32): reads the base color and
line width, computes the average endpoint scaling, and — only when both
endpoints are visible — sets the source color to the base RGB with the
midpoint fog amount as alpha, scales the line width, and draws the line
between the cached projections; the line width (and only the line width)
is restored at the end. -/
def segmentStroke (w : World) (st : Store) (g : Segment) (c : Ctx) : Ctx :=
  let lineWidth := c.lineWidth
  let A := deref st g.a
  let B := deref st g.b
  let scale := (A.scaling + B.scaling) / 2
  let c1 :=
    if pointVisible w A && pointVisible w B then
      ctxStroke (ctxLineTo (ctxMoveTo (ctxSetLineWidth
        (ctxSetSourceColor c ⟨w.R, w.G, w.B, fogAmount w ((A.z + B.z) / 2)⟩)
        (lineWidth * scale)) A.px A.py) B.px B.py)
    else c
  ctxSetLineWidth c1 lineWidth

/-- `shouldDraw` (part_002/part_003): both endpoints pass the visibility
test. -/
def shouldDraw (w : World) (A B : Point) : Bool :=
  pointVisible w A && pointVisible w B

/-- Go `Segment.Stroke` (segment.go lines 20-33): the variant with the
`World.ScaleLineWidth` flag and no color logic; scale is the average
endpoint scaling when the flag is on, 1 otherwise; draws only when
`shouldDraw` holds; restores the line width at the end. -/
def segmentStrokeCtx (w : World) (st : Store) (g : Segment) (c : Ctx) : Ctx :=
  let lineWidth := c.lineWidth
  let A := deref st g.a
  let B := deref st g.b
  let scale := if w.ScaleLineWidth then (A.scaling + B.scaling) / 2 else 1
  let c1 :=
    if shouldDraw w A B then
      ctxStroke (ctxLineTo (ctxMoveTo (ctxSetLineWidth c (lineWidth * scale))
        A.px A.py) B.px B.py)
    else c
  ctxSetLineWidth c1 lineWidth

/-- The shading factor as the spec words it (§4.5 / C7): the fog map
clamped to [0,1], combined via minimum with the water-level map clamped to
[0,1]; an inactive feature contributes the opaque factor 1. -/
def specShadeFactor (w : World) (objectY objectZ : ℚ) : ℚ :=
  min
    (max 0 (min 1 (if w.FogActive then blMap (objectZ + w.CZ) w.NearFog w.FarFog 1 0 else 1)))
    (max 0 (min 1 (if w.WaterLevelActive
      then blMap objectY w.WaterLevelTop w.WaterLevelBottom 1 0 else 1)))

/-- One whitespace-separated field of an input line, abstracted by its
parse results: `asInt` / `asFloat` are the values `strconv.ParseInt` /
`strconv.ParseFloat` would return on its text (`none` = parse error). -/
structure Tok where
  asInt : Option ℤ
  asFloat : Option ℚ
deriving DecidableEq, Repr

/-- One line of an input file: `wholeInt` is the `strconv.ParseInt` result
on the whole line text (used for the count lines), `fields` its
`strings.Split` on spaces.  `Split` never returns an empty list; the empty
line yields the single unparseable field `⟨none, none⟩`. -/
structure Line where
  wholeInt : Option ℤ
  fields : List Tok
deriving DecidableEq, Repr

/-- `bufio.Scanner.Scan/Text`: the next line, or the empty line when the
input is exhausted (`Scan() = false` leaves `Text() = ""`). -/
def scan : List Line → Line × List Line
  | [] => (⟨none, [⟨none, none⟩]⟩, [])
  | l :: rest => (l, rest)

/-- Intermediate parse outcome: a value, a recoverable error returned to
the caller, or a runtime panic (slice index out of range). -/
inductive PResult (α : Type) where
  | ok (a : α)
  | parseError
  | crash
deriving DecidableEq, Repr

/-- Outcome of `LoadShape`: a shape (with its backing store), a recoverable
parse error carrying no shape, or a runtime panic. -/
inductive LoadResult where
  | ok (st : Store) (s : Shape)
  | parseError
  | crash
deriving DecidableEq, Repr

/-- Go `parseCoords` (part_010 lines 113-128): indexes the split fields at
positions 0, 1, 2 and `ParseFloat`s each, returning the error on an
unparseable field.  Go indexes before it can check, so a line with fewer
than three fields panics at the first missing index. -/
def parseCoords (fs : List Tok) : PResult (ℚ × ℚ × ℚ) :=
  match fs[0]? with
  | none => .crash
  | some f0 =>
    match f0.asFloat with
    | none => .parseError
    | some x =>
      match fs[1]? with
      | none => .crash
      | some f1 =>
        match f1.asFloat with
        | none => .parseError
        | some y =>
          match fs[2]? with
          | none => .crash
          | some f2 =>
            match f2.asFloat with
            | none => .parseError
            | some z => .ok (x, y, z)

/-- Go `parseIndices` (part_010 lines 130-142): indexes the split fields at
positions 0, 1 and `ParseInt`s each; a line with fewer than two fields
panics at the missing index. -/
def parseIndices (fs : List Tok) : PResult (ℤ × ℤ) :=
  match fs[0]? with
  | none => .crash
  | some f0 =>
    match f0.asInt with
    | none => .parseError
    | some i =>
      match fs[1]? with
      | none => .crash
      | some f1 =>
        match f1.asInt with
        | none => .parseError
        | some j => .ok (i, j)

/-- The point-reading loop of `LoadShape` (`for range numPoints`): scans a
line, parses its coordinates, and appends `NewPoint(x, y, z)` (projection
cache zeroed) on success. -/
def readPoints : Nat → List Line → List Point → PResult (List Point × List Line)
  | 0, lines, acc => .ok (acc, lines)
  | n + 1, lines, acc =>
    let s := scan lines
    match parseCoords s.1.fields with
    | .crash => .crash
    | .parseError => .parseError
    | .ok (x, y, z) => readPoints n s.2 (acc ++ [⟨x, y, z, 0, 0, 0⟩])

/-- The segment-reading loop of `LoadShape`: scans a line, parses its two
indices, rejects any index outside `[0, numPts)` with a recoverable error,
and otherwise adds the segment by index. -/
def readSegs (numPts : Nat) : Nat → List Line → List Segment → PResult (List Segment)
  | 0, _, acc => .ok acc
  | n + 1, lines, acc =>
    let s := scan lines
    match parseIndices s.1.fields with
    | .crash => .crash
    | .parseError => .parseError
    | .ok (i, j) =>
      if i < 0 ∨ (numPts : ℤ) ≤ i ∨ j < 0 ∨ (numPts : ℤ) ≤ j then .parseError
      else readSegs numPts n s.2 (acc ++ [⟨i.toNat, j.toNat⟩])

/-- Go `LoadShape` (part_010 lines 66-111): parse the point count, read
that many coordinate lines, parse the segment count, read that many index
lines with the bounds check, and only then return the shape.  Every Go
`return nil, err` path is `.parseError` (no partial shape), every slice
index panic is `.crash`. -/
def loadShape (lines : List Line) : LoadResult :=
  let s1 := scan lines
  match s1.1.wholeInt with
  | none => .parseError
  | some numPoints =>
    match readPoints numPoints.toNat s1.2 [] with
    | .crash => .crash
    | .parseError => .parseError
    | .ok (pts, rest2) =>
      let s2 := scan rest2
      match s2.1.wholeInt with
      | none => .parseError
      | some numSegments =>
        match readSegs pts.length numSegments.toNat s2.2 [] with
        | .crash => .crash
        | .parseError => .parseError
        | .ok segs => .ok ⟨pts⟩ ⟨List.range pts.length, segs⟩

/-- A count line as `Save` writes it: a single integer. -/
def countLine (n : ℤ) : Line :=
  ⟨some n, [⟨some n, some (n : ℚ)⟩]⟩

/-- A coordinate line as `Save` writes it: three numeric fields (the whole
line does not parse as one integer). -/
def coordLine (x y z : ℚ) : Line :=
  ⟨none, [⟨none, some x⟩, ⟨none, some y⟩, ⟨none, some z⟩]⟩

/-- An index line as `Save` writes it: two integer fields. -/
def indexLine (i j : ℤ) : Line :=
  ⟨none, [⟨some i, some (i : ℚ)⟩, ⟨some j, some (j : ℚ)⟩]⟩

/-- A canonical shape file: point count, coordinate lines, segment count,
index lines. -/
def mkShapeFile (cs : List (ℚ × ℚ × ℚ)) (ss : List (ℤ × ℤ)) : List Line :=
  countLine cs.length :: cs.map (fun c => coordLine c.1 c.2.1 c.2.2) ++
    countLine ss.length :: ss.map (fun p => indexLine p.1 p.2)

/-- Go `math.Sqrt` modelled over ℚ via `Rat.sqrt`: it agrees exactly with
the float square root whenever the argument is the square of a rational
(the regime in which all claims about `Subdivide` are evaluated; segments
of irrational length are outside the exact-rational model). -/
def goSqrt (q : ℚ) : ℚ :=
  Rat.sqrt q

/-- Go `math.Round`: round half away from zero. -/
def goRound (q : ℚ) : ℤ :=
  if 0 ≤ q then ⌊q + 1 / 2⌋ else -⌊-q + 1 / 2⌋

/-- Go `Point.Translated` (point.go): clone this point (all six fields)
and translate the copy's x, y, z. -/
def ptTranslated (p : Point) (tx ty tz : ℚ) : Point :=
  ⟨p.x + tx, p.y + ty, p.z + tz, p.px, p.py, p.scaling⟩

/-- The segment length computed at the top of the `Subdivide` loop
(part_000 lines 183-204): `math.Sqrt(dx*dx + dy*dy + dz*dz)` on the
dereferenced endpoints. -/
def segLength (st : Store) (g : Segment) : ℚ :=
  goSqrt (((deref st g.b).x - (deref st g.a).x) * ((deref st g.b).x - (deref st g.a).x) +
    ((deref st g.b).y - (deref st g.a).y) * ((deref st g.b).y - (deref st g.a).y) +
    ((deref st g.b).z - (deref st g.a).z) * ((deref st g.b).z - (deref st g.a).z))

/-- The interior points inserted for one segment by `Subdivide`: for
`i = 1 … count−1`, `first.Translated(dx/count*i, dy/count*i, dz/count*i)`
(the Go loop `for i := 1.0; i < count; i++` runs `count−1` times for an
integer-valued `count ≥ 1` and not at all otherwise). -/
def interiorPts (A : Point) (dx dy dz : ℚ) (count : ℤ) : List Point :=
  (List.range (count.toNat - 1)).map (fun (j : Nat) =>
    ptTranslated A (dx / (count : ℚ) * ((j : ℚ) + 1)) (dy / (count : ℚ) * ((j : ℚ) + 1))
      (dz / (count : ℚ) * ((j : ℚ) + 1)))

/-- The segments the `Subdivide` loop emits along a node list: the running
`(p0, p1)` pairs, ending with `(p0, last)`. -/
def consecutivePairs : List Nat → List Segment
  | a :: b :: rest => ⟨a, b⟩ :: consecutivePairs (b :: rest)
  | _ => []

/-- The body of the `Subdivide` loop (part_000 lines 183-204) for one
segment: measure the segment, let `count := Round(segLength/maxDist)`,
allocate the `count−1` evenly spaced interior points (appended to the
heap in order), and emit the replacement chain. -/
def subdivideSeg (st : Store) (m : ℚ) (g : Segment) : Store × List Nat × List Segment :=
  let A := deref st g.a
  let B := deref st g.b
  let dx := B.x - A.x
  let dy := B.y - A.y
  let dz := B.z - A.z
  let count := goRound (goSqrt (dx * dx + dy * dy + dz * dz) / m)
  let vals := interiorPts A dx dy dz count
  let newRefs := List.range' st.pts.length vals.length
  (⟨st.pts ++ vals⟩, newRefs, consecutivePairs (g.a :: (newRefs ++ [g.b])))

/-- The `Subdivide` loop over the original segment list: appends each
segment's interior points to the shape's point list and collects the
replacement chains into the fresh segment list `newSegs`. -/
def subdivideGo (m : ℚ) :
    Store → List Nat → List Segment → List Segment → Store × List Nat × List Segment
  | st, ptsAcc, segsAcc, [] => (st, ptsAcc, segsAcc)
  | st, ptsAcc, segsAcc, g :: rest =>
    let r := subdivideSeg st m g
    subdivideGo m r.1 (ptsAcc ++ r.2.1) (segsAcc ++ r.2.2) rest

/-- Go `Shape.Subdivide` (part_000 lines 183-204). -/
def shapeSubdivide (st : Store) (s : Shape) (m : ℚ) : Store × Shape :=
  let r := subdivideGo m st s.points [] s.segments
  (r.1, ⟨r.2.1, r.2.2⟩)

/-- The per-segment subdivision count of the spec (§4.4):
`round(length / maxLength)`. -/
def chainCount (st : Store) (m : ℚ) (g : Segment) : ℤ :=
  goRound (segLength st g / m)

/-- The node list of a replacement chain: original start point, the fresh
interior points, original end point. -/
def chainNodes (g : Segment) (refs : List Nat) : List Nat :=
  g.a :: (refs ++ [g.b])

/-- What the spec (§4.4, as amended) asserts of the chain replacing one
segment `g`: `count − 1` interior points, the chain is the consecutive
pairing of start/interior/end nodes, it has `max 1 count` segments, the
nodes are evenly spaced (each consecutive coordinate difference is the
segment delta over `count`) whenever `count ≥ 1`, and a segment with
`count ≤ 0` is re-emitted unchanged.  `stF` is the heap after the whole
`Subdivide` call, `st0` the heap it started from. -/
def evenChainAt (stF st0 : Store) (m : ℚ) (g : Segment)
    (ch : List Nat × List Segment) : Prop :=
  ch.1.length = (chainCount st0 m g).toNat - 1 ∧
  ch.2 = consecutivePairs (chainNodes g ch.1) ∧
  ch.2.length = max 1 (chainCount st0 m g).toNat ∧
  (1 ≤ chainCount st0 m g →
    ∀ j, j < (chainCount st0 m g).toNat →
      ((deref stF ((chainNodes g ch.1).getD (j + 1) 0)).x -
          (deref stF ((chainNodes g ch.1).getD j 0)).x =
        ((deref st0 g.b).x - (deref st0 g.a).x) / ((chainCount st0 m g : ℤ) : ℚ)) ∧
      ((deref stF ((chainNodes g ch.1).getD (j + 1) 0)).y -
          (deref stF ((chainNodes g ch.1).getD j 0)).y =
        ((deref st0 g.b).y - (deref st0 g.a).y) / ((chainCount st0 m g : ℤ) : ℚ)) ∧
      ((deref stF ((chainNodes g ch.1).getD (j + 1) 0)).z -
          (deref stF ((chainNodes g ch.1).getD j 0)).z =
        ((deref st0 g.b).z - (deref st0 g.a).z) / ((chainCount st0 m g : ℤ) : ℚ))) ∧
  (chainCount st0 m g ≤ 0 →
    ch.1 = [] ∧ ch.2 = [Segment.mk g.a g.b])

/-- The perspective scale of the spec formula (§4.1):
`scale = focalLength / (cameraZ + z)`. -/
def specScale (w : World) (p : Point) : ℚ :=
  w.FL / (w.CZ + p.z)

/-- The projected x of the spec formula (§4.1): `px = cameraX + x*scale`. -/
def specPx (w : World) (p : Point) : ℚ :=
  w.CX + p.x * specScale w p

/-- The projected y of the spec formula (§4.1): `py = cameraY + y*scale`. -/
def specPy (w : World) (p : Point) : ℚ :=
  w.CY + p.y * specScale w p

/-- List lookup in the left part of an append. -/
theorem getD_append_left {α : Type} (l l' : List α) (n : Nat) (d : α)
    (h : n < l.length) : (l ++ l').getD n d = l.getD n d := by
  induction l generalizing n with
  | nil => simp at h
  | cons x xs ih =>
    cases n with
    | zero => rfl
    | succ m =>
      simp only [List.cons_append, List.getD_cons_succ]
      exact ih m (by simpa using h)

/-- List lookup in the right part of an append. -/
theorem getD_append_right {α : Type} (l l' : List α) (n : Nat) (d : α) :
    (l ++ l').getD (l.length + n) d = l'.getD n d := by
  induction l with
  | nil => simp
  | cons x xs ih =>
    simpa [List.cons_append, Nat.succ_add, List.getD_cons_succ] using ih

/-- Lookup in `List.range'` at step 1. -/
theorem range'_getD (s n i : Nat) (h : i < n) :
    (List.range' s n).getD i 0 = s + i := by
  induction n generalizing s i with
  | zero => omega
  | succ m ih =>
    cases i with
    | zero => simp [List.range'_succ]
    | succ j =>
      have := ih (s + 1) j (by omega)
      simp only [List.range'_succ, List.getD_cons_succ]
      omega

/-- Lookup commutes with `map` inside the length (any defaults). -/
theorem getD_map {α β : Type} (f : α → β) (l : List α) (n : Nat) (d : β)
    (d' : α) (h : n < l.length) : (l.map f).getD n d = f (l.getD n d') := by
  induction l generalizing n with
  | nil => simp at h
  | cons x xs ih =>
    cases n with
    | zero => rfl
    | succ m =>
      simp only [List.map_cons, List.getD_cons_succ]
      exact ih m (by simpa using h)

/-- Every member sits at some in-range index (with a fixed default). -/
theorem mem_getD {α : Type} (l : List α) (g : α) (d : α) (h : g ∈ l) :
    ∃ k, k < l.length ∧ l.getD k d = g := by
  induction l with
  | nil => simp at h
  | cons x xs ih =>
    rcases List.mem_cons.mp h with h0 | h1
    · exact ⟨0, by simp, h0.symm⟩
    · obtain ⟨k, hk, hg⟩ := ih h1
      exact ⟨k + 1, by simpa using hk, hg⟩

/-- Lookup at an index other than the one being overwritten. -/
theorem getD_set_ne {α : Type} (l : List α) (i j : Nat) (v d : α)
    (h : i ≠ j) : (l.set i v).getD j d = l.getD j d := by
  induction l generalizing i j with
  | nil => rfl
  | cons x xs ih =>
    cases i with
    | zero =>
      cases j with
      | zero => omega
      | succ m => rfl
    | succ k =>
      cases j with
      | zero => rfl
      | succ m =>
        simp only [List.set_cons_succ, List.getD_cons_succ]
        exact ih k m (by omega)

/-- An in-range lookup is a member of the list. -/
theorem getD_mem {α : Type} (l : List α) (n : Nat) (d : α)
    (h : n < l.length) : l.getD n d ∈ l := by
  induction l generalizing n with
  | nil => simp at h
  | cons x xs ih =>
    cases n with
    | zero => exact List.mem_cons_self x xs
    | succ m => exact List.mem_cons_of_mem x (ih m (by simpa using h))

/-- C1: for every point p, after calling Project() the cached projection
fields equal the closed-form perspective formula computed from the current
camera state (Scaling = focalLength / (cameraZ + p.Z),
Px = cameraX + p.X * Scaling, Py = cameraY + p.Y * Scaling), and no other
field of p changes. -/
theorem project_matches_perspective_formula (w : World) (p : Point) :
    (pointProject w p).scaling = specScale w p ∧
    (pointProject w p).px = specPx w p ∧
    (pointProject w p).py = specPy w p ∧
    (pointProject w p).x = p.x ∧
    (pointProject w p).y = p.y ∧
    (pointProject w p).z = p.z := by
  refine ⟨rfl, rfl, rfl, rfl, rfl, rfl⟩

/-- C5: a point is visible if and only if nearClip ≤ p.Z + cameraZ ≤ farClip;
both boundaries are inclusive. -/
theorem visible_iff_within_clip_range (w : World) (p : Point) :
    pointVisible w p = true ↔
      w.NearZ ≤ p.z + w.CZ ∧ p.z + w.CZ ≤ w.FarZ := by
  unfold pointVisible
  by_cases h1 : p.z + w.CZ < w.NearZ
  · rw [if_pos h1]
    exact ⟨fun hf => absurd hf (by decide), fun hc => absurd hc.1 (not_le.mpr h1)⟩
  · rw [if_neg h1]
    by_cases h2 : p.z + w.CZ > w.FarZ
    · rw [if_pos h2]
      exact ⟨fun hf => absurd hf (by decide), fun hc => absurd hc.2 (not_le.mpr h2)⟩
    · rw [if_neg h2]
      exact ⟨fun _ => ⟨le_of_not_lt h1, le_of_not_lt h2⟩, fun _ => rfl⟩

/-- C9: for every point list and every negative index i, `Get` computes the
access position as len − i ≥ len + 1, so the slice access is always out of
bounds and no element is returned. -/
theorem get_negative_index_out_of_bounds (p : List Nat) (i : ℤ) (h : i < 0) :
    pointListGetIdx p i = (p.length : ℤ) - i ∧
    (p.length : ℤ) + 1 ≤ pointListGetIdx p i ∧
    pointListGet p i = none := by
  have hidx : pointListGetIdx p i = (p.length : ℤ) - i := by
    unfold pointListGetIdx
    simp [h]
  have hge : (p.length : ℤ) + 1 ≤ pointListGetIdx p i := by
    rw [hidx]
    omega
  refine ⟨hidx, hge, ?_⟩
  unfold pointListGet
  have hnot : ¬(0 ≤ (if i < 0 then (p.length : ℤ) - i else i) ∧
      (if i < 0 then (p.length : ℤ) - i else i) < (p.length : ℤ)) := by
    simp only [if_pos h]
    omega
  simp [hnot]

/-- Witness for C9 at a concrete input: a one-element list accessed at
index −1 yields no value. -/
theorem get_negative_index_out_of_bounds_witness :
    ((-1 : ℤ) < 0) ∧ pointListGet [5] (-1) = none := by
  refine ⟨by decide, (get_negative_index_out_of_bounds [5] (-1) (by decide)).2.2⟩

/-- Closed form of `PointList.Clone` on a valid heap: the heap grows by a
copy of each point (in order) and the returned pointers are exactly the
freshly allocated indices. -/
theorem pointListClone_eq (pts : List Nat) : ∀ (st : Store),
    (∀ r ∈ pts, r < st.pts.length) →
    pointListClone st pts =
      (⟨st.pts ++ pts.map (deref st)⟩, List.range' st.pts.length pts.length) := by
  induction pts with
  | nil =>
    intro st _
    simp [pointListClone]
  | cons r rest ih =>
    intro st h
    have hpc : pointClone (deref st r) = deref st r := rfl
    have hrest : ∀ x ∈ rest,
        x < (Store.mk (st.pts ++ [pointClone (deref st r)])).pts.length := by
      intro x hx
      have hlt := h x (List.mem_cons_of_mem r hx)
      show x < (st.pts ++ [pointClone (deref st r)]).length
      simp only [List.length_append, List.length_cons, List.length_nil]
      omega
    have hmap : rest.map (deref (Store.mk (st.pts ++ [pointClone (deref st r)]))) =
        rest.map (deref st) := by
      apply List.map_congr_left
      intro x hx
      exact getD_append_left st.pts [pointClone (deref st r)] x default
        (h x (List.mem_cons_of_mem r hx))
    rw [show pointListClone st (r :: rest) =
      ((pointListClone ⟨st.pts ++ [pointClone (deref st r)]⟩ rest).1,
        st.pts.length :: (pointListClone ⟨st.pts ++ [pointClone (deref st r)]⟩ rest).2)
      from rfl]
    rw [ih _ hrest, hmap]
    simp only [List.length_append, List.length_cons, List.length_nil, List.map_cons,
      List.range'_succ, hpc]
    rw [List.append_assoc, List.singleton_append]

/-- `slices.Index` returns −1 exactly when the pointer is absent. -/
theorem goIndex_not_mem (xs : List Nat) (v : Nat) (h : v ∉ xs) :
    goIndex xs v = -1 := by
  induction xs with
  | nil => rfl
  | cons x rest ih =>
    have hx : ¬(x = v) := fun he => h (he ▸ List.mem_cons_self x rest)
    have hr : v ∉ rest := fun hm => h (List.mem_cons_of_mem x hm)
    simp only [goIndex, if_neg hx, ih hr]
    rfl

/-- `slices.Index` on a present pointer returns an in-range index holding
that pointer. -/
theorem goIndex_mem (xs : List Nat) (v : Nat) (h : v ∈ xs) :
    0 ≤ goIndex xs v ∧ goIndex xs v < (xs.length : ℤ) ∧
      xs.getD (goIndex xs v).toNat 0 = v := by
  induction xs with
  | nil => simp at h
  | cons x rest ih =>
    by_cases hx : x = v
    · refine ⟨by simp [goIndex, hx], by simp [goIndex, hx], ?_⟩
      simp [goIndex, hx]
    · have hv : v ∈ rest := by
        rcases List.mem_cons.mp h with h0 | h1
        · exact absurd h0.symm hx
        · exact h1
      obtain ⟨h0, h1, h2⟩ := ih hv
      have hneg : ¬(goIndex rest v < 0) := not_lt.mpr h0
      refine ⟨?_, ?_, ?_⟩
      · simp only [goIndex, if_neg hx, if_neg hneg]
        omega
      · simp only [goIndex, if_neg hx, if_neg hneg, List.length_cons]
        push_cast
        omega
      · simp only [goIndex, if_neg hx, if_neg hneg]
        have ht : (goIndex rest v + 1).toNat = (goIndex rest v).toNat + 1 := by omega
        rw [ht, List.getD_cons_succ]
        exact h2

/-- The segment-rebinding loop succeeds on every segment list satisfying the
ownership invariant, rebinding each segment positionally. -/
theorem cloneSegs_total (origPts clonePts : List Nat)
    (hlen : clonePts.length = origPts.length) :
    ∀ (segs : List Segment), (∀ g ∈ segs, g.a ∈ origPts ∧ g.b ∈ origPts) →
    ∃ out, cloneSegs origPts clonePts segs = some out ∧
      out.length = segs.length ∧
      ∀ k, k < segs.length →
        ∃ ia ib, ia < origPts.length ∧ ib < origPts.length ∧
          origPts.getD ia 0 = (segs.getD k default).a ∧
          origPts.getD ib 0 = (segs.getD k default).b ∧
          out.getD k default = Segment.mk (clonePts.getD ia 0) (clonePts.getD ib 0) := by
  intro segs
  induction segs with
  | nil =>
    intro _
    exact ⟨[], rfl, rfl, fun k hk => absurd hk (Nat.not_lt_zero k)⟩
  | cons g rest ih =>
    intro h
    obtain ⟨ha0, ha1, ha2⟩ := goIndex_mem origPts g.a (h g (List.mem_cons_self g rest)).1
    obtain ⟨hb0, hb1, hb2⟩ := goIndex_mem origPts g.b (h g (List.mem_cons_self g rest)).2
    obtain ⟨out, hout, houtlen, hk⟩ := ih (fun g' hg' => h g' (List.mem_cons_of_mem g hg'))
    have hcond : 0 ≤ goIndex origPts g.a ∧ goIndex origPts g.a < (clonePts.length : ℤ) ∧
        0 ≤ goIndex origPts g.b ∧ goIndex origPts g.b < (clonePts.length : ℤ) := by
      rw [hlen]
      exact ⟨ha0, ha1, hb0, hb1⟩
    refine ⟨Segment.mk (clonePts.getD (goIndex origPts g.a).toNat 0)
        (clonePts.getD (goIndex origPts g.b).toNat 0) :: out, ?_, ?_, ?_⟩
    · simp only [cloneSegs, addSegmentByIndex, if_pos hcond, hout, Option.map_some']
    · simp [houtlen]
    · intro k hk'
      cases k with
      | zero =>
        refine ⟨(goIndex origPts g.a).toNat, (goIndex origPts g.b).toNat, ?_, ?_, ?_, ?_, rfl⟩
        · omega
        · omega
        · simpa using ha2
        · simpa using hb2
      | succ m =>
        obtain ⟨ia, ib, hia, hib, hpa, hpb, hseg⟩ := hk m (by simpa using hk')
        exact ⟨ia, ib, hia, hib, by simpa using hpa, by simpa using hpb, by simpa using hseg⟩

/-- The segment-rebinding loop panics (returns `none`) as soon as one
segment has an endpoint absent from the original point list. -/
theorem cloneSegs_none (origPts clonePts : List Nat) :
    ∀ (segs : List Segment), (∃ g ∈ segs, g.a ∉ origPts ∨ g.b ∉ origPts) →
    cloneSegs origPts clonePts segs = none := by
  intro segs
  induction segs with
  | nil =>
    intro hbad
    obtain ⟨g, hg, _⟩ := hbad
    simp at hg
  | cons g0 rest ih =>
    intro hbad
    obtain ⟨g, hg, hor⟩ := hbad
    rcases List.mem_cons.mp hg with rfl | hmem
    · rcases hor with hna | hnb
      · have hia : goIndex origPts g.a = -1 := goIndex_not_mem _ _ hna
        have hcond : ¬(0 ≤ goIndex origPts g.a ∧
            goIndex origPts g.a < (clonePts.length : ℤ) ∧
            0 ≤ goIndex origPts g.b ∧ goIndex origPts g.b < (clonePts.length : ℤ)) := by
          rw [hia]
          intro hc
          omega
        simp only [cloneSegs, addSegmentByIndex, if_neg hcond]
      · have hib : goIndex origPts g.b = -1 := goIndex_not_mem _ _ hnb
        have hcond : ¬(0 ≤ goIndex origPts g.a ∧
            goIndex origPts g.a < (clonePts.length : ℤ) ∧
            0 ≤ goIndex origPts g.b ∧ goIndex origPts g.b < (clonePts.length : ℤ)) := by
          rw [hib]
          intro hc
          omega
        simp only [cloneSegs, addSegmentByIndex, if_neg hcond]
    · cases hmatch : addSegmentByIndex clonePts (goIndex origPts g0.a) (goIndex origPts g0.b) with
      | none => simp only [cloneSegs, hmatch]
      | some seg =>
        simp only [cloneSegs, hmatch, ih ⟨g, hmem, hor⟩]
        rfl

/-- C2: Clone(S) is a deep copy: the original points keep their values, the
clone gets one fresh point per original point with the same value at the
same index, clone pointers never alias original pointers (so mutating a
point of either shape never changes the other), and every segment of the
clone is the original segment rebound to the cloned points at the same
positional indices, hence references only members of the clone's own point
collection. -/
theorem shape_clone_is_deep (st : Store) (s : Shape)
    (hval : ∀ r ∈ s.points, r < st.pts.length)
    (hseg : ∀ g ∈ s.segments, g.a ∈ s.points ∧ g.b ∈ s.points) :
    ∃ st' cp segs, shapeClone st s = some (st', ⟨cp, segs⟩) ∧
      (∀ r ∈ s.points, deref st' r = deref st r) ∧
      cp.length = s.points.length ∧
      (∀ i, i < s.points.length →
        deref st' (cp.getD i 0) = deref st (s.points.getD i 0)) ∧
      (∀ r' ∈ cp, r' ∉ s.points) ∧
      (∀ r' ∈ cp, ∀ r ∈ s.points, ∀ v,
        deref (setPt st' r' v) r = deref st' r ∧
        deref (setPt st' r v) r' = deref st' r') ∧
      segs.length = s.segments.length ∧
      (∀ k, k < s.segments.length →
        ∃ ia ib, ia < s.points.length ∧ ib < s.points.length ∧
          s.points.getD ia 0 = (s.segments.getD k default).a ∧
          s.points.getD ib 0 = (s.segments.getD k default).b ∧
          segs.getD k default = Segment.mk (cp.getD ia 0) (cp.getD ib 0)) ∧
      (∀ g ∈ segs, g.a ∈ cp ∧ g.b ∈ cp) := by
  have hplc := pointListClone_eq s.points st hval
  have hlenr : (List.range' st.pts.length s.points.length).length = s.points.length := by
    simp
  obtain ⟨out, hout, houtlen, hkspec⟩ :=
    cloneSegs_total s.points (List.range' st.pts.length s.points.length) hlenr
      s.segments hseg
  refine ⟨⟨st.pts ++ s.points.map (deref st)⟩, List.range' st.pts.length s.points.length,
    out, ?_, ?_, hlenr, ?_, ?_, ?_, houtlen, hkspec, ?_⟩
  · simp [shapeClone, hplc, hout]
  · intro r hr
    exact getD_append_left st.pts (s.points.map (deref st)) r default (hval r hr)
  · intro i hi
    rw [range'_getD st.pts.length s.points.length i hi]
    show (st.pts ++ s.points.map (deref st)).getD (st.pts.length + i) default = _
    rw [getD_append_right st.pts (s.points.map (deref st)) i default]
    exact getD_map (deref st) s.points i default 0 hi
  · intro r' hr' hmem
    have h1 := (List.mem_range'_1).mp hr'
    have h2 := hval r' hmem
    omega
  · intro r' hr' r hr v
    have h1 := (List.mem_range'_1).mp hr'
    have h2 := hval r hr
    have hne : r' ≠ r := by omega
    exact ⟨getD_set_ne _ r' r v default hne,
      getD_set_ne _ r r' v default (fun he => hne he.symm)⟩
  · intro g hg
    obtain ⟨k, hk, hgk⟩ := mem_getD out g default hg
    have hk' : k < s.segments.length := by omega
    obtain ⟨ia, ib, hia, hib, _, _, hseg'⟩ := hkspec k hk'
    have hgeq : g = Segment.mk ((List.range' st.pts.length s.points.length).getD ia 0)
        ((List.range' st.pts.length s.points.length).getD ib 0) := by
      rw [← hgk, hseg']
    rw [hgeq]
    exact ⟨getD_mem _ ia 0 (by omega), getD_mem _ ib 0 (by omega)⟩

/-- Witness for C2 at a concrete input: cloning a two-point, one-segment
shape succeeds, and the clone's pointers are disjoint from the original's. -/
theorem shape_clone_is_deep_witness :
    ∃ st' cp segs,
      shapeClone ⟨[⟨0, 0, 0, 0, 0, 0⟩, ⟨1, 2, 3, 0, 0, 0⟩]⟩ ⟨[0, 1], [⟨0, 1⟩]⟩ =
        some (st', ⟨cp, segs⟩) ∧
      (∀ r' ∈ cp, r' ∉ [0, 1]) := by
  obtain ⟨st', cp, segs, h1, _, _, _, h5, _⟩ :=
    shape_clone_is_deep ⟨[⟨0, 0, 0, 0, 0, 0⟩, ⟨1, 2, 3, 0, 0, 0⟩]⟩ ⟨[0, 1], [⟨0, 1⟩]⟩
      (by decide) (by decide)
  exact ⟨st', cp, segs, h1, h5⟩

/-- C10: whenever some segment endpoint is not (by pointer identity) an
element of the shape's point list — e.g. after `ThinPoints` discarded it —
`Clone`'s positional lookup yields −1 and the subsequent
`AddSegmentByIndex` indexes out of bounds, so `Clone` fails instead of
producing a shape. -/
theorem clone_fails_without_ownership_invariant (st : Store) (s : Shape)
    (hbad : ∃ g ∈ s.segments, g.a ∉ s.points ∨ g.b ∉ s.points) :
    shapeClone st s = none := by
  simp [shapeClone, cloneSegs_none s.points (pointListClone st s.points).2 s.segments hbad]

/-- Witness for C10 at a concrete input: `ThinPoints(1, 1)` on a two-point
shape keeps only the first point while leaving the segment in place, after
which `Clone` fails. -/
theorem clone_fails_without_ownership_invariant_witness :
    shapeThinPoints ⟨[0, 1], [⟨0, 1⟩]⟩ 1 1 = ⟨[0], [⟨0, 1⟩]⟩ ∧
    shapeClone ⟨[⟨0, 0, 0, 0, 0, 0⟩, ⟨1, 2, 3, 0, 0, 0⟩]⟩ ⟨[0], [⟨0, 1⟩]⟩ = none := by
  refine ⟨by decide, ?_⟩
  exact clone_fails_without_ownership_invariant _ _
    ⟨⟨0, 1⟩, by decide, Or.inr (by decide)⟩

/-- C3: `Cull` keeps exactly the original points satisfying the predicate in
their original relative order and cascades segment removal (every remaining
segment has both endpoints in the remaining point list) — but `CullBox`
does not: on a concrete two-point shape with one point outside the box,
the out-of-box point is removed while the segment referencing it survives,
contradicting the claimed cascading. -/
theorem cull_cascades_but_cullbox_leaves_dangling_segments
    (st : Store) (s : Shape) (f : Point → Bool)
    (hseg : ∀ g ∈ s.segments, g.a ∈ s.points ∧ g.b ∈ s.points) :
    ((shapeCull st s f).points = s.points.filter (fun r => f (deref st r)) ∧
      ∀ g ∈ (shapeCull st s f).segments,
        g.a ∈ (shapeCull st s f).points ∧ g.b ∈ (shapeCull st s f).points) ∧
    shapeCullBox ⟨[⟨0, 0, 0, 0, 0, 0⟩, ⟨5, 5, 5, 0, 0, 0⟩]⟩ ⟨[0, 1], [⟨0, 1⟩]⟩
        0 0 0 1 1 1 = ⟨[0], [⟨0, 1⟩]⟩ := by
  constructor
  · constructor
    · rfl
    · intro g hg
      simp only [shapeCull, pointListCull] at hg ⊢
      have hmem := List.mem_filter.mp hg
      obtain ⟨hga, hgb⟩ := hseg g hmem.1
      have hf := hmem.2
      rw [Bool.and_eq_true] at hf
      exact ⟨List.mem_filter.mpr ⟨hga, hf.1⟩, List.mem_filter.mpr ⟨hgb, hf.2⟩⟩
  · decide

/-- Witness for C3 at a concrete input: culling with `x ≤ 1` keeps only the
first point, while `CullBox` on the same shape leaves the segment dangling. -/
theorem cull_cascades_but_cullbox_leaves_dangling_segments_witness :
    (shapeCull ⟨[⟨0, 0, 0, 0, 0, 0⟩, ⟨5, 5, 5, 0, 0, 0⟩]⟩ ⟨[0, 1], [⟨0, 1⟩]⟩
        (fun p => decide (p.x ≤ 1))).points = [0] ∧
    shapeCullBox ⟨[⟨0, 0, 0, 0, 0, 0⟩, ⟨5, 5, 5, 0, 0, 0⟩]⟩ ⟨[0, 1], [⟨0, 1⟩]⟩
        0 0 0 1 1 1 = ⟨[0], [⟨0, 1⟩]⟩ := by
  have h := cull_cascades_but_cullbox_leaves_dangling_segments
    ⟨[⟨0, 0, 0, 0, 0, 0⟩, ⟨5, 5, 5, 0, 0, 0⟩]⟩ ⟨[0, 1], [⟨0, 1⟩]⟩
    (fun p => decide (p.x ≤ 1)) (by decide)
  refine ⟨?_, h.2⟩
  rw [h.1.1]
  decide

/-- `blmath.Clamp v 0 1` agrees with the order-theoretic clamp. -/
theorem blClamp01_eq (v : ℚ) : blClamp v 0 1 = max 0 (min 1 v) := by
  unfold blClamp
  rcases lt_or_le v 0 with h | h
  · rw [if_pos h, min_eq_right (by linarith), max_eq_left (by linarith)]
  · rw [if_neg (not_lt.mpr h)]
    rcases lt_or_le 1 v with h2 | h2
    · rw [if_pos h2, min_eq_left (by linarith), max_eq_right (by linarith)]
    · rw [if_neg (not_lt.mpr h2), min_eq_right h2, max_eq_right h]

/-- C7: the shading attenuation factor is always in [0,1]; it equals the
minimum of the clamped fog map of `z + cameraZ` (1 at fogNear, 0 at fogFar)
and the clamped water-level map of `y` (an inactive feature contributing
1); and with both features disabled the factor is exactly 1 and the
drawing color is left untouched (both for `ApplyFogAndWaterLevel` and for
the fog-only `FogAmount`). -/
theorem shading_factor_is_clamped_min (w : World) (y z : ℚ) (c : Ctx) :
    0 ≤ fogWaterFactor w y z ∧ fogWaterFactor w y z ≤ 1 ∧
    fogWaterFactor w y z = specShadeFactor w y z ∧
    (w.FogActive = false → w.WaterLevelActive = false →
      fogWaterFactor w y z = 1 ∧ applyFogAndWaterLevel w y z c = c ∧
      fogAmount w z = 1) := by
  have hb : ∀ v : ℚ, 0 ≤ blClamp v 0 1 ∧ blClamp v 0 1 ≤ 1 := by
    intro v
    unfold blClamp
    split_ifs with h1 h2
    · exact ⟨le_refl 0, by norm_num⟩
    · exact ⟨by norm_num, le_refl 1⟩
    · exact ⟨not_lt.mp h1, not_lt.mp h2⟩
  have key : ∀ f0 w0 : ℚ, blClamp (min f0 w0) 0 1 = min (blClamp f0 0 1) (blClamp w0 0 1) := by
    intro f0 w0
    rw [blClamp01_eq, blClamp01_eq, blClamp01_eq]
    rw [show (1 : ℚ) ⊓ (f0 ⊓ w0) = (1 ⊓ f0) ⊓ (1 ⊓ w0) from inf_inf_distrib_left 1 f0 w0]
    exact sup_inf_left 0 (1 ⊓ f0) (1 ⊓ w0)
  have hclamp1 : blClamp (1 : ℚ) 0 1 = 1 := by norm_num [blClamp]
  refine ⟨(hb _).1, (hb _).2, ?_, ?_⟩
  · unfold fogWaterFactor specShadeFactor
    cases hw : w.WaterLevelActive
    · simp only [hw, Bool.false_eq_true, if_false, ← blClamp01_eq, hclamp1]
      exact (min_eq_left (hb _).2).symm
    · simp only [hw, if_true, ← blClamp01_eq]
      exact key _ _
  · intro hf hw
    have h1 : fogWaterFactor w y z = 1 := by
      simp [fogWaterFactor, hf, hw, blClamp]
    refine ⟨h1, ?_, by simp [fogAmount, hf]⟩
    unfold applyFogAndWaterLevel
    rw [h1]
    simp

/-- Witness for C7 at a concrete input: with fog and water level disabled
the factor is 1 and the context is unchanged. -/
theorem shading_factor_is_clamped_min_witness :
    fogWaterFactor ⟨300, 0, 0, 0, 100, 100000, false, 400, 1200, false, 400,
        1200, 1, 1, 1, false⟩ 7 9 = 1 ∧
    applyFogAndWaterLevel ⟨300, 0, 0, 0, 100, 100000, false, 400, 1200, false,
        400, 1200, 1, 1, 1, false⟩ 7 9 ⟨2, ⟨1, 1, 1, 1⟩, []⟩ =
      ⟨2, ⟨1, 1, 1, 1⟩, []⟩ := by
  have h := shading_factor_is_clamped_min
    ⟨300, 0, 0, 0, 100, 100000, false, 400, 1200, false, 400, 1200, 1, 1, 1, false⟩
    7 9 ⟨2, ⟨1, 1, 1, 1⟩, []⟩
  obtain ⟨-, -, -, h4⟩ := h
  obtain ⟨ha, hb, -⟩ := h4 rfl rfl
  exact ⟨ha, hb⟩

/-- C6 (amended): both `Segment.Stroke` variants issue the
moveTo/lineTo/stroke between the endpoints' cached projections only when
both endpoints pass the visibility test; the stroke width is the base line
width times the average endpoint projection scale (gated by the
`ScaleLineWidth` flag in the segment.go variant, always in the part_009
variant); the part_009 variant attenuates the color alpha by the fog
amount of the segment midpoint; the base line width is restored after
drawing, but the part_009 variant leaves the source color at the
attenuated value rather than restoring it. -/
theorem segment_stroke_trace (w : World) (st : Store) (g : Segment) (c : Ctx) :
    (segmentStroke w st g c).lineWidth = c.lineWidth ∧
    (segmentStroke w st g c).ops = c.ops ++
      (if pointVisible w (deref st g.a) && pointVisible w (deref st g.b) then
        [DrawOp.setSourceColor ⟨w.R, w.G, w.B,
            fogAmount w (((deref st g.a).z + (deref st g.b).z) / 2)⟩,
          DrawOp.setLineWidth (c.lineWidth *
            (((deref st g.a).scaling + (deref st g.b).scaling) / 2)),
          DrawOp.moveTo (deref st g.a).px (deref st g.a).py,
          DrawOp.lineTo (deref st g.b).px (deref st g.b).py,
          DrawOp.stroke, DrawOp.setLineWidth c.lineWidth]
      else [DrawOp.setLineWidth c.lineWidth]) ∧
    (segmentStroke w st g c).color =
      (if pointVisible w (deref st g.a) && pointVisible w (deref st g.b) then
        Color.mk w.R w.G w.B (fogAmount w (((deref st g.a).z + (deref st g.b).z) / 2))
      else c.color) ∧
    (segmentStrokeCtx w st g c).lineWidth = c.lineWidth ∧
    (segmentStrokeCtx w st g c).color = c.color ∧
    (segmentStrokeCtx w st g c).ops = c.ops ++
      (if shouldDraw w (deref st g.a) (deref st g.b) then
        [DrawOp.setLineWidth (c.lineWidth *
            (if w.ScaleLineWidth then
              ((deref st g.a).scaling + (deref st g.b).scaling) / 2 else 1)),
          DrawOp.moveTo (deref st g.a).px (deref st g.a).py,
          DrawOp.lineTo (deref st g.b).px (deref st g.b).py,
          DrawOp.stroke, DrawOp.setLineWidth c.lineWidth]
      else [DrawOp.setLineWidth c.lineWidth]) := by
  unfold segmentStroke segmentStrokeCtx shouldDraw
  by_cases hv : pointVisible w (deref st g.a) && pointVisible w (deref st g.b)
  · simp [hv, ctxSetLineWidth, ctxSetSourceColor, ctxMoveTo, ctxLineTo, ctxStroke]
  · simp [hv, ctxSetLineWidth, ctxSetSourceColor, ctxMoveTo, ctxLineTo, ctxStroke]

/-- C6 counterexample: with fog active and a visible segment of midpoint
fog amount 1/2, `Segment.Stroke` (part_009) leaves the context's source
color at the attenuated value — the base color is not restored after
drawing, contradicting the claim. -/
theorem segment_stroke_does_not_restore_color :
    (segmentStroke
        ⟨300, 0, 0, 0, 100, 100000, true, 100, 300, false, 0, 0, 1, 1, 1, true⟩
        ⟨[⟨0, 0, 200, 0, 0, 1⟩, ⟨0, 0, 200, 0, 0, 1⟩]⟩ ⟨0, 1⟩
        ⟨1, ⟨1, 1, 1, 1⟩, []⟩).color = ⟨1, 1, 1, 1/2⟩ ∧
    (⟨1, 1, 1, 1/2⟩ : Color) ≠ ⟨1, 1, 1, 1⟩ := by
  constructor
  · norm_num [segmentStroke, pointVisible, fogAmount, blClamp, blMap, blNorm, blLerp,
      deref, ctxSetLineWidth, ctxSetSourceColor, ctxMoveTo, ctxLineTo, ctxStroke]
  · norm_num

/-- One step of the point-reading loop on a canonical coordinate line. -/
theorem readPoints_step (x y z : ℚ) (n : Nat) (L : List Line) (acc : List Point) :
    readPoints (n + 1) (coordLine x y z :: L) acc =
      readPoints n L (acc ++ [⟨x, y, z, 0, 0, 0⟩]) := rfl

/-- One step of the segment-reading loop on a canonical index line. -/
theorem readSegs_step (i j : ℤ) (nP n : Nat) (L : List Line) (acc : List Segment) :
    readSegs nP (n + 1) (indexLine i j :: L) acc =
      if i < 0 ∨ (nP : ℤ) ≤ i ∨ j < 0 ∨ (nP : ℤ) ≤ j then .parseError
      else readSegs nP n L (acc ++ [⟨i.toNat, j.toNat⟩]) := rfl

/-- The point-reading loop consumes exactly the canonical coordinate lines
and appends the corresponding points. -/
theorem readPoints_canonical (cs : List (ℚ × ℚ × ℚ)) :
    ∀ (rest : List Line) (acc : List Point),
    readPoints cs.length (cs.map (fun c => coordLine c.1 c.2.1 c.2.2) ++ rest) acc =
      .ok (acc ++ cs.map (fun c => ⟨c.1, c.2.1, c.2.2, 0, 0, 0⟩), rest) := by
  induction cs with
  | nil =>
    intro rest acc
    simp [readPoints]
  | cons c cs ih =>
    intro rest acc
    rw [List.map_cons, List.cons_append, List.length_cons, readPoints_step, ih]
    simp

/-- The segment-reading loop consumes exactly the canonical index lines,
rejecting the file with a recoverable error iff some index is out of
`[0, numPts)`. -/
theorem readSegs_canonical (nP : Nat) (ss : List (ℤ × ℤ)) :
    ∀ (rest : List Line) (acc : List Segment),
    readSegs nP ss.length (ss.map (fun p => indexLine p.1 p.2) ++ rest) acc =
      (if ∀ p ∈ ss, 0 ≤ p.1 ∧ p.1 < (nP : ℤ) ∧ 0 ≤ p.2 ∧ p.2 < (nP : ℤ)
      then .ok (acc ++ ss.map (fun p => ⟨p.1.toNat, p.2.toNat⟩))
      else .parseError) := by
  induction ss with
  | nil =>
    intro rest acc
    rw [if_pos (fun p hp => absurd hp (List.not_mem_nil p))]
    simp [readSegs]
  | cons p ps ih =>
    intro rest acc
    rw [List.map_cons, List.cons_append, List.length_cons, readSegs_step]
    by_cases hp : 0 ≤ p.1 ∧ p.1 < (nP : ℤ) ∧ 0 ≤ p.2 ∧ p.2 < (nP : ℤ)
    · rw [if_neg (by omega), ih]
      by_cases hps : ∀ q ∈ ps, 0 ≤ q.1 ∧ q.1 < (nP : ℤ) ∧ 0 ≤ q.2 ∧ q.2 < (nP : ℤ)
      · rw [if_pos hps, if_pos ?hall]
        · simp
        case hall =>
          intro q hq
          rcases List.mem_cons.mp hq with rfl | h
          · exact hp
          · exact hps q h
      · rw [if_neg hps, if_neg (fun hall => hps (fun q hq => hall q (List.mem_cons_of_mem p hq)))]
    · rw [if_pos (by omega), if_neg (fun hall => hp (hall p (List.mem_cons_self p ps)))]

/-- `LoadShape` on a canonical file: succeeds with exactly the listed
points and segments iff every segment index is in range, and returns a
recoverable error (no shape) otherwise. -/
theorem loadShape_canonical (cs : List (ℚ × ℚ × ℚ)) (ss : List (ℤ × ℤ)) :
    loadShape (mkShapeFile cs ss) =
      (if ∀ p ∈ ss, 0 ≤ p.1 ∧ p.1 < (cs.length : ℤ) ∧ 0 ≤ p.2 ∧ p.2 < (cs.length : ℤ)
      then .ok ⟨cs.map (fun c => ⟨c.1, c.2.1, c.2.2, 0, 0, 0⟩)⟩
        ⟨List.range cs.length, ss.map (fun p => ⟨p.1.toNat, p.2.toNat⟩)⟩
      else .parseError) := by
  have h1 : loadShape (mkShapeFile cs ss) =
      match readPoints cs.length
        (cs.map (fun c => coordLine c.1 c.2.1 c.2.2) ++
          countLine ss.length :: ss.map (fun p => indexLine p.1 p.2)) [] with
      | .crash => .crash
      | .parseError => .parseError
      | .ok (pts, rest2) =>
        match (scan rest2).1.wholeInt with
        | none => .parseError
        | some numSegments =>
          match readSegs pts.length numSegments.toNat (scan rest2).2 [] with
          | .crash => .crash
          | .parseError => .parseError
          | .ok segs => .ok ⟨pts⟩ ⟨List.range pts.length, segs⟩ := by
    show loadShape (countLine (cs.length : ℤ) :: _) = _
    simp only [loadShape, scan, countLine, Int.toNat_natCast]
    rfl
  rw [h1, readPoints_canonical]
  simp only [List.nil_append, scan, countLine, Int.toNat_natCast]
  rw [show (cs.map (fun c => (⟨c.1, c.2.1, c.2.2, 0, 0, 0⟩ : Point))).length = cs.length
    from List.length_map cs _]
  rw [show List.map (fun p => indexLine p.1 p.2) ss =
      List.map (fun p => indexLine p.1 p.2) ss ++ ([] : List Line)
    from (List.append_nil _).symm]
  rw [readSegs_canonical]
  by_cases hall : ∀ p ∈ ss, 0 ≤ p.1 ∧ p.1 < (cs.length : ℤ) ∧ 0 ≤ p.2 ∧ p.2 < (cs.length : ℤ)
  · rw [if_pos hall, if_pos hall]
    simp
  · rw [if_neg hall, if_neg hall]

/-- C8 (amended): loading fails with a recoverable parse error — never a
crash, and never a partial shape — when the point or segment count is
non-numeric, when a present coordinate or index field is non-numeric, or
when a segment index is outside `[0, point count)` (canonical files load
exactly the listed points and segments otherwise); but a coordinate line
with fewer than three fields, or an index line with fewer than two, makes
the Go code index the split slice out of range and panic instead of
returning an error. -/
theorem load_shape_error_contract :
    (∀ (fs : List Tok) (rest : List Line),
      loadShape (⟨none, fs⟩ :: rest) = LoadResult.parseError) ∧
    loadShape [] = LoadResult.parseError ∧
    (∀ cs ss, loadShape (mkShapeFile cs ss) =
      (if ∀ p ∈ ss, 0 ≤ p.1 ∧ p.1 < (cs.length : ℤ) ∧ 0 ≤ p.2 ∧ p.2 < (cs.length : ℤ)
      then .ok ⟨cs.map (fun c => ⟨c.1, c.2.1, c.2.2, 0, 0, 0⟩)⟩
        ⟨List.range cs.length, ss.map (fun p => ⟨p.1.toNat, p.2.toNat⟩)⟩
      else .parseError)) ∧
    (∀ t fs', t.asFloat = none → parseCoords (t :: fs') = PResult.parseError) ∧
    (∀ t u fs' x, t.asFloat = some x → u.asFloat = none →
      parseCoords (t :: u :: fs') = PResult.parseError) ∧
    (∀ t u v fs' x y, t.asFloat = some x → u.asFloat = some y → v.asFloat = none →
      parseCoords (t :: u :: v :: fs') = PResult.parseError) ∧
    (∀ t u x y, t.asFloat = some x → u.asFloat = some y →
      parseCoords [t, u] = PResult.crash) ∧
    (∀ t x, t.asFloat = some x → parseCoords [t] = PResult.crash) ∧
    (∀ t fs', t.asInt = none → parseIndices (t :: fs') = PResult.parseError) ∧
    (∀ t u fs' i, t.asInt = some i → u.asInt = none →
      parseIndices (t :: u :: fs') = PResult.parseError) ∧
    (∀ t i, t.asInt = some i → parseIndices [t] = PResult.crash) ∧
    (∀ (k : Nat) (l1fs fs : List Tok) (wi : Option ℤ) (rest : List Line),
      (parseCoords fs = PResult.parseError →
        loadShape (⟨some ((k : ℤ) + 1), l1fs⟩ :: ⟨wi, fs⟩ :: rest) = LoadResult.parseError) ∧
      (parseCoords fs = PResult.crash →
        loadShape (⟨some ((k : ℤ) + 1), l1fs⟩ :: ⟨wi, fs⟩ :: rest) = LoadResult.crash)) := by
  refine ⟨?_, rfl, loadShape_canonical, ?_, ?_, ?_, ?_, ?_, ?_, ?_, ?_, ?_⟩
  · intro fs rest
    simp [loadShape, scan]
  · intro t fs' h
    simp [parseCoords, h]
  · intro t u fs' x ht hu
    simp [parseCoords, ht, hu]
  · intro t u v fs' x y ht hu hv
    simp [parseCoords, ht, hu, hv]
  · intro t u x y ht hu
    simp [parseCoords, ht, hu]
  · intro t x ht
    simp [parseCoords, ht]
  · intro t fs' h
    simp [parseIndices, h]
  · intro t u fs' i ht hu
    simp [parseIndices, ht, hu]
  · intro t i ht
    simp [parseIndices, ht]
  · intro k l1fs fs wi rest
    have htn : ((k : ℤ) + 1).toNat = k + 1 := by omega
    constructor
    · intro h
      simp [loadShape, scan, htn, readPoints, h]
    · intro h
      simp [loadShape, scan, htn, readPoints, h]

/-- C8 counterexample: the file `"1\n1 2"` — a valid point count followed
by a coordinate line with only two (numeric) fields — makes `LoadShape`
panic with an index-out-of-range in `parseCoords` instead of returning a
recoverable parse error. -/
theorem load_shape_crashes_on_short_coordinate_line :
    loadShape [⟨some 1, [⟨some 1, some 1⟩]⟩,
      ⟨none, [⟨some 1, some 1⟩, ⟨some 2, some 2⟩]⟩] = LoadResult.crash ∧
    LoadResult.crash ≠ LoadResult.parseError := by
  exact ⟨rfl, by simp⟩

/-- Witness for C8 at concrete inputs: an unparseable single-field line is
a recoverable coordinate parse error, and the empty file is a recoverable
error. -/
theorem load_shape_error_contract_witness :
    parseCoords [⟨none, none⟩] = PResult.parseError ∧
    loadShape [] = LoadResult.parseError := by
  obtain ⟨h1, h2, h3, h4, hrest⟩ := load_shape_error_contract
  exact ⟨h4 ⟨none, none⟩ [] rfl, h2⟩

/-- `goSqrt` is exact on rational squares (the regime of the Subdivide
claims). -/
theorem goSqrt_sq (L : ℚ) (h : 0 ≤ L) : goSqrt (L * L) = L := by
  rw [goSqrt, Rat.sqrt_eq, abs_of_nonneg h]

/-- Length of the chain the Subdivide loop emits over a node list. -/
theorem consecutivePairs_length (l : List Nat) :
    ∀ (a b : Nat), (consecutivePairs (a :: (l ++ [b]))).length = l.length + 1 := by
  induction l with
  | nil => intro a b; rfl
  | cons c l' ih =>
    intro a b
    rw [show consecutivePairs (a :: ((c :: l') ++ [b])) =
      Segment.mk a c :: consecutivePairs (c :: (l' ++ [b])) from rfl,
      List.length_cons, ih c b, List.length_cons]

/-- The `i`-th chain segment connects the `i`-th and `(i+1)`-th nodes. -/
theorem consecutivePairs_getD : ∀ (ns : List Nat) (i : Nat), i + 1 < ns.length →
    (consecutivePairs ns).getD i default = Segment.mk (ns.getD i 0) (ns.getD (i + 1) 0) := by
  intro ns
  induction ns with
  | nil => intro i hi; simp at hi
  | cons a rest ih =>
    intro i hi
    cases rest with
    | nil => simp at hi
    | cons b rest' =>
      cases i with
      | zero => rfl
      | succ j =>
        show (Segment.mk a b :: consecutivePairs (b :: rest')).getD (j + 1) default = _
        rw [List.getD_cons_succ, List.getD_cons_succ, List.getD_cons_succ]
        exact ih j (by simpa using hi)

/-- In-range `getD` on `List.range`. -/
theorem range_getD (n j : Nat) (h : j < n) : (List.range n).getD j 0 = j := by
  rw [List.getD_eq_getElem _ _ (by simpa using h)]
  simp

/-- Number of interior points inserted for one segment. -/
theorem interiorPts_length (A : Point) (dx dy dz : ℚ) (c : ℤ) :
    (interiorPts A dx dy dz c).length = c.toNat - 1 := by
  unfold interiorPts
  rw [List.length_map, List.length_range]

/-- Value of the `j`-th interior point. -/
theorem interiorPts_getD (A : Point) (dx dy dz : ℚ) (c : ℤ) (j : Nat)
    (h : j < c.toNat - 1) :
    (interiorPts A dx dy dz c).getD j default =
      ptTranslated A (dx / (c : ℚ) * ((j : ℚ) + 1)) (dy / (c : ℚ) * ((j : ℚ) + 1))
        (dz / (c : ℚ) * ((j : ℚ) + 1)) := by
  unfold interiorPts
  rw [getD_map _ _ j default 0 (by rw [List.length_range]; exact h), range_getD _ j h]

/-- Store extension is transitive. -/
theorem ext_trans {st1 st2 st3 : Store} (h12 : ∃ t, st2.pts = st1.pts ++ t)
    (h23 : ∃ t, st3.pts = st2.pts ++ t) : ∃ t, st3.pts = st1.pts ++ t := by
  obtain ⟨t1, h1⟩ := h12
  obtain ⟨t2, h2⟩ := h23
  exact ⟨t1 ++ t2, by rw [h2, h1, List.append_assoc]⟩

/-- Dereference is stable under store extension for valid pointers. -/
theorem deref_ext {st st' : Store} (h : ∃ t, st'.pts = st.pts ++ t) (r : Nat)
    (hr : r < st.pts.length) : deref st' r = deref st r := by
  obtain ⟨t, ht⟩ := h
  show st'.pts.getD r default = st.pts.getD r default
  rw [ht]
  exact getD_append_left st.pts t r default hr

/-- Node lookup: head. -/
theorem nodes_getD_zero (a b : Nat) (refs : List Nat) :
    (a :: (refs ++ [b])).getD 0 0 = a := rfl

/-- Node lookup: interior (the `j`-th fresh pointer). -/
theorem nodes_getD_mid (a b base n : Nat) (j : Nat) (h : j < n) :
    (a :: (List.range' base n ++ [b])).getD (j + 1) 0 = base + j := by
  rw [List.getD_cons_succ, getD_append_left _ _ _ _ (by simpa using h)]
  exact range'_getD base n j h

/-- Node lookup: tail. -/
theorem nodes_getD_last (a b base n : Nat) :
    (a :: (List.range' base n ++ [b])).getD (n + 1) 0 = b := by
  rw [List.getD_cons_succ]
  have hlen : (List.range' base n).length = n := by simp
  have h2 := getD_append_right (List.range' base n) [b] 0 (0 : Nat)
  rw [hlen] at h2
  simpa using h2

/-- Node lookup: tail, with the index given as an equal expression. -/
theorem nodes_getD_last_of_eq (a b base n k : Nat) (hk : k = n + 1) :
    (a :: (List.range' base n ++ [b])).getD k 0 = b := by
  subst hk
  exact nodes_getD_last a b base n

/-- The arithmetic core of even spacing: a node-value function that starts
at `A`, is `A + d/c·j` in the middle, and ends at `A + d`, has constant
consecutive difference `d/c`. -/
theorem even_spacing (A d : ℚ) (c : ℤ) (hc : 1 ≤ c) (f : ℕ → ℚ)
    (h0 : f 0 = A)
    (hmid : ∀ j, 1 ≤ j → j ≤ c.toNat - 1 → f j = A + d / (c : ℚ) * (j : ℚ))
    (hlast : f c.toNat = A + d) :
    ∀ j, j < c.toNat → f (j + 1) - f j = d / (c : ℚ) := by
  have hcq : ((c : ℚ)) ≠ 0 := by
    have : (0 : ℚ) < (c : ℚ) := by exact_mod_cast lt_of_lt_of_le one_pos hc
    exact ne_of_gt this
  intro j hj
  by_cases hend : j + 1 = c.toNat
  · rw [hend, hlast]
    cases j with
    | zero =>
      rw [h0]
      have hc1 : c = 1 := by omega
      rw [hc1]
      push_cast
      ring
    | succ i =>
      rw [hmid (i + 1) (by omega) (by omega)]
      have hcast : ((i : ℚ) + 1) = (c : ℚ) - 1 := by
        have h2 : ((i : ℤ) + 1 + 1) = c := by omega
        have h3 : ((i : ℚ) + 1 + 1) = (c : ℚ) := by exact_mod_cast h2
        linarith
      push_cast
      rw [hcast]
      field_simp
      ring
  · have hj1 : j + 1 ≤ c.toNat - 1 := by omega
    rw [hmid (j + 1) (by omega) hj1]
    cases j with
    | zero =>
      rw [h0]
      push_cast
      ring
    | succ i =>
      rw [hmid (i + 1) (by omega) (by omega)]
      push_cast
      ring

/-- The chain emitted by one pass of the `Subdivide` loop body satisfies
the even-chain specification, read in any later heap `resF` that extends
the loop body's output heap. -/
theorem subdivideSeg_chain_spec (st0 st resF : Store) (m : ℚ) (g : Segment)
    (hga : g.a < st0.pts.length) (hgb : g.b < st0.pts.length)
    (hext : ∃ t, st.pts = st0.pts ++ t)
    (hextF : ∃ t, resF.pts = (subdivideSeg st m g).1.pts ++ t) :
    evenChainAt resF st0 m g ((subdivideSeg st m g).2.1, (subdivideSeg st m g).2.2) := by
  have hda : deref st g.a = deref st0 g.a := deref_ext hext g.a hga
  have hdb : deref st g.b = deref st0 g.b := deref_ext hext g.b hgb
  have hga' : g.a < st.pts.length := by
    obtain ⟨t, ht⟩ := hext
    rw [ht, List.length_append]
    omega
  have hgb' : g.b < st.pts.length := by
    obtain ⟨t, ht⟩ := hext
    rw [ht, List.length_append]
    omega
  have h1 : (subdivideSeg st m g).1.pts =
      st.pts ++ interiorPts (deref st0 g.a)
        ((deref st0 g.b).x - (deref st0 g.a).x)
        ((deref st0 g.b).y - (deref st0 g.a).y)
        ((deref st0 g.b).z - (deref st0 g.a).z) (chainCount st0 m g) := by
    simp only [subdivideSeg, hda, hdb]
    rfl
  have h2 : (subdivideSeg st m g).2.1 =
      List.range' st.pts.length ((chainCount st0 m g).toNat - 1) := by
    simp only [subdivideSeg, hda, hdb, interiorPts_length]
    rfl
  have h3 : (subdivideSeg st m g).2.2 =
      consecutivePairs (chainNodes g (subdivideSeg st m g).2.1) := by
    simp only [subdivideSeg, hda, hdb, chainNodes]
  have hder : ∀ r < st.pts.length, deref resF r = deref st r := by
    intro r hr
    obtain ⟨t, ht⟩ := hextF
    rw [show deref resF r = (resF.pts.getD r default) from rfl, ht, h1,
      List.append_assoc]
    exact getD_append_left st.pts _ r default hr
  have hdera : deref resF g.a = deref st0 g.a := by rw [hder g.a hga', hda]
  have hderb : deref resF g.b = deref st0 g.b := by rw [hder g.b hgb', hdb]
  have hmidder : ∀ i, i < (chainCount st0 m g).toNat - 1 →
      deref resF (st.pts.length + i) =
        ptTranslated (deref st0 g.a)
          (((deref st0 g.b).x - (deref st0 g.a).x) / ((chainCount st0 m g : ℤ) : ℚ) * ((i : ℚ) + 1))
          (((deref st0 g.b).y - (deref st0 g.a).y) / ((chainCount st0 m g : ℤ) : ℚ) * ((i : ℚ) + 1))
          (((deref st0 g.b).z - (deref st0 g.a).z) / ((chainCount st0 m g : ℤ) : ℚ) * ((i : ℚ) + 1)) := by
    intro i hi
    obtain ⟨t, ht⟩ := hextF
    rw [show deref resF (st.pts.length + i) = (resF.pts.getD (st.pts.length + i) default)
      from rfl, ht, h1, List.append_assoc, getD_append_right st.pts _ i default]
    rw [getD_append_left _ t i default (by rw [interiorPts_length]; exact hi)]
    exact interiorPts_getD _ _ _ _ _ i hi
  refine ⟨?_, ?_, ?_, ?_, ?_⟩
  · rw [h2]
    simp
  · rw [h3]
  · rw [h3, h2]
    simp only [chainNodes]
    rw [consecutivePairs_length]
    simp only [List.length_range']
    omega
  · intro hc1 j hj
    have hxne : (((chainCount st0 m g : ℤ) : ℚ)) ≠ 0 := by
      have : (0 : ℚ) < ((chainCount st0 m g : ℤ) : ℚ) := by
        exact_mod_cast lt_of_lt_of_le one_pos hc1
      exact ne_of_gt this
    have hnode0 : deref resF ((chainNodes g (subdivideSeg st m g).2.1).getD 0 0) =
        deref st0 g.a := by
      simp only [chainNodes]
      rw [nodes_getD_zero, hdera]
    have hnodeMid : ∀ j', 1 ≤ j' → j' ≤ (chainCount st0 m g).toNat - 1 →
        deref resF ((chainNodes g (subdivideSeg st m g).2.1).getD j' 0) =
          ptTranslated (deref st0 g.a)
            (((deref st0 g.b).x - (deref st0 g.a).x) / ((chainCount st0 m g : ℤ) : ℚ) * (j' : ℚ))
            (((deref st0 g.b).y - (deref st0 g.a).y) / ((chainCount st0 m g : ℤ) : ℚ) * (j' : ℚ))
            (((deref st0 g.b).z - (deref st0 g.a).z) / ((chainCount st0 m g : ℤ) : ℚ) * (j' : ℚ)) := by
      intro j' h1' h2'
      cases j' with
      | zero => omega
      | succ i =>
        simp only [chainNodes]
        rw [h2, nodes_getD_mid g.a g.b st.pts.length _ i (by omega)]
        rw [hmidder i (by omega)]
        have hcast : ((i : ℚ) + 1) = ((i + 1 : ℕ) : ℚ) := by push_cast; ring
        rw [hcast]
    have hnodeLast : deref resF
        ((chainNodes g (subdivideSeg st m g).2.1).getD (chainCount st0 m g).toNat 0) =
          deref st0 g.b := by
      simp only [chainNodes]
      rw [h2, nodes_getD_last_of_eq g.a g.b st.pts.length ((chainCount st0 m g).toNat - 1)
        (chainCount st0 m g).toNat (by omega), hderb]
    have hx0 : (deref resF ((chainNodes g (subdivideSeg st m g).2.1).getD 0 0)).x =
        (deref st0 g.a).x := congrArg Point.x hnode0
    have hy0 : (deref resF ((chainNodes g (subdivideSeg st m g).2.1).getD 0 0)).y =
        (deref st0 g.a).y := congrArg Point.y hnode0
    have hz0 : (deref resF ((chainNodes g (subdivideSeg st m g).2.1).getD 0 0)).z =
        (deref st0 g.a).z := congrArg Point.z hnode0
    have hxmid : ∀ j', 1 ≤ j' → j' ≤ (chainCount st0 m g).toNat - 1 →
        (deref resF ((chainNodes g (subdivideSeg st m g).2.1).getD j' 0)).x =
          (deref st0 g.a).x +
            ((deref st0 g.b).x - (deref st0 g.a).x) / ((chainCount st0 m g : ℤ) : ℚ) * (j' : ℚ) := by
      intro j' ha hb
      rw [hnodeMid j' ha hb]
      rfl
    have hymid : ∀ j', 1 ≤ j' → j' ≤ (chainCount st0 m g).toNat - 1 →
        (deref resF ((chainNodes g (subdivideSeg st m g).2.1).getD j' 0)).y =
          (deref st0 g.a).y +
            ((deref st0 g.b).y - (deref st0 g.a).y) / ((chainCount st0 m g : ℤ) : ℚ) * (j' : ℚ) := by
      intro j' ha hb
      rw [hnodeMid j' ha hb]
      rfl
    have hzmid : ∀ j', 1 ≤ j' → j' ≤ (chainCount st0 m g).toNat - 1 →
        (deref resF ((chainNodes g (subdivideSeg st m g).2.1).getD j' 0)).z =
          (deref st0 g.a).z +
            ((deref st0 g.b).z - (deref st0 g.a).z) / ((chainCount st0 m g : ℤ) : ℚ) * (j' : ℚ) := by
      intro j' ha hb
      rw [hnodeMid j' ha hb]
      rfl
    have hxlast : (deref resF
        ((chainNodes g (subdivideSeg st m g).2.1).getD (chainCount st0 m g).toNat 0)).x =
          (deref st0 g.a).x + ((deref st0 g.b).x - (deref st0 g.a).x) := by
      rw [hnodeLast]
      ring
    have hylast : (deref resF
        ((chainNodes g (subdivideSeg st m g).2.1).getD (chainCount st0 m g).toNat 0)).y =
          (deref st0 g.a).y + ((deref st0 g.b).y - (deref st0 g.a).y) := by
      rw [hnodeLast]
      ring
    have hzlast : (deref resF
        ((chainNodes g (subdivideSeg st m g).2.1).getD (chainCount st0 m g).toNat 0)).z =
          (deref st0 g.a).z + ((deref st0 g.b).z - (deref st0 g.a).z) := by
      rw [hnodeLast]
      ring
    exact ⟨even_spacing (deref st0 g.a).x ((deref st0 g.b).x - (deref st0 g.a).x)
        (chainCount st0 m g) hc1
        (fun j => (deref resF ((chainNodes g (subdivideSeg st m g).2.1).getD j 0)).x)
        hx0 hxmid hxlast j hj,
      even_spacing (deref st0 g.a).y ((deref st0 g.b).y - (deref st0 g.a).y)
        (chainCount st0 m g) hc1
        (fun j => (deref resF ((chainNodes g (subdivideSeg st m g).2.1).getD j 0)).y)
        hy0 hymid hylast j hj,
      even_spacing (deref st0 g.a).z ((deref st0 g.b).z - (deref st0 g.a).z)
        (chainCount st0 m g) hc1
        (fun j => (deref resF ((chainNodes g (subdivideSeg st m g).2.1).getD j 0)).z)
        hz0 hzmid hzlast j hj⟩
  · intro hc0
    have hz : (chainCount st0 m g).toNat - 1 = 0 := by omega
    constructor
    · rw [h2, hz]
      rfl
    · rw [h3, h2, hz]
      rfl

/-- The `Subdivide` loop over a segment list: the point accumulator grows
by each segment's interior points, the segment accumulator by each
segment's chain, the heap only extends, and every per-segment chain
satisfies the even-chain specification in the final heap. -/
theorem subdivideGo_spec (m : ℚ) :
    ∀ (segs : List Segment) (st0 st : Store) (ptsAcc : List Nat) (segsAcc : List Segment),
    (∃ t, st.pts = st0.pts ++ t) →
    (∀ g ∈ segs, g.a < st0.pts.length ∧ g.b < st0.pts.length) →
    ∃ chains : List (List Nat × List Segment),
      chains.length = segs.length ∧
      (subdivideGo m st ptsAcc segsAcc segs).2.1 = ptsAcc ++ (chains.map Prod.fst).flatten ∧
      (subdivideGo m st ptsAcc segsAcc segs).2.2 = segsAcc ++ (chains.map Prod.snd).flatten ∧
      (∃ t, (subdivideGo m st ptsAcc segsAcc segs).1.pts = st.pts ++ t) ∧
      ∀ k, k < segs.length →
        evenChainAt (subdivideGo m st ptsAcc segsAcc segs).1 st0 m (segs.getD k default)
          (chains.getD k ([], [])) := by
  intro segs
  induction segs with
  | nil =>
    intro st0 st ptsAcc segsAcc hext hval
    exact ⟨[], rfl, by simp [subdivideGo], by simp [subdivideGo],
      ⟨[], by simp [subdivideGo]⟩, fun k hk => absurd hk (Nat.not_lt_zero k)⟩
  | cons g rest ih =>
    intro st0 st ptsAcc segsAcc hext hval
    have hga : g.a < st0.pts.length := (hval g (List.mem_cons_self g rest)).1
    have hgb : g.b < st0.pts.length := (hval g (List.mem_cons_self g rest)).2
    have hext1 : ∃ t, (subdivideSeg st m g).1.pts = st.pts ++ t := ⟨_, rfl⟩
    obtain ⟨chains', hlen', hpts', hsegs', hext', hk'⟩ :=
      ih st0 (subdivideSeg st m g).1 (ptsAcc ++ (subdivideSeg st m g).2.1)
        (segsAcc ++ (subdivideSeg st m g).2.2) (ext_trans hext hext1)
        (fun g' hg' => hval g' (List.mem_cons_of_mem g hg'))
    have hgo : subdivideGo m st ptsAcc segsAcc (g :: rest) =
        subdivideGo m (subdivideSeg st m g).1 (ptsAcc ++ (subdivideSeg st m g).2.1)
          (segsAcc ++ (subdivideSeg st m g).2.2) rest := rfl
    refine ⟨((subdivideSeg st m g).2.1, (subdivideSeg st m g).2.2) :: chains',
      by simp [hlen'], ?_, ?_, ?_, ?_⟩
    · rw [hgo, hpts']
      simp [List.append_assoc]
    · rw [hgo, hsegs']
      simp [List.append_assoc]
    · rw [hgo]
      exact ext_trans hext1 hext'
    · intro k hk
      cases k with
      | zero =>
        rw [hgo]
        exact subdivideSeg_chain_spec st0 st _ m g hga hgb hext hext'
      | succ k' =>
        rw [hgo]
        have h := hk' k' (by simpa using hk)
        simpa using h

/-- C4 (amended): `Subdivide(maxLength)` replaces each segment by a chain
of `max 1 (round(length/maxLength))` evenly spaced segments — the
`round(length/maxLength) − 1` intermediate points are appended to the
shape's point list and each consecutive coordinate difference along a
chain equals the original segment delta divided by the count — while the
original points are left untouched.  (The resulting segments can exceed
`maxLength` when rounding goes down, so the claim's "no resulting segment
exceeds maxLength" does not hold; see the counterexample.) -/
theorem subdivide_replaces_segments_with_even_chains
    (st : Store) (s : Shape) (m : ℚ)
    (hval : ∀ g ∈ s.segments, g.a < st.pts.length ∧ g.b < st.pts.length) :
    ∃ chains : List (List Nat × List Segment),
      chains.length = s.segments.length ∧
      (shapeSubdivide st s m).2.points = s.points ++ (chains.map Prod.fst).flatten ∧
      (shapeSubdivide st s m).2.segments = (chains.map Prod.snd).flatten ∧
      (∀ r, r < st.pts.length → deref (shapeSubdivide st s m).1 r = deref st r) ∧
      ∀ k, k < s.segments.length →
        evenChainAt (shapeSubdivide st s m).1 st m (s.segments.getD k default)
          (chains.getD k ([], [])) := by
  obtain ⟨chains, h1, h2, h3, h4, h5⟩ :=
    subdivideGo_spec m s.segments st st s.points [] ⟨[], by simp⟩ hval
  refine ⟨chains, h1, h2, ?_, ?_, h5⟩
  · rw [show (shapeSubdivide st s m).2.segments =
      (subdivideGo m st s.points [] s.segments).2.2 from rfl, h3]
    simp
  · intro r hr
    exact deref_ext h4 r hr

/-- C4 counterexample: a segment of length 12 subdivided with
`maxLength = 5` gets `count = round(12/5) = 2`, producing two segments of
length 6 — a resulting segment exceeds `maxLength`, contradicting the
claim's "no resulting segment exceeds maxLength". -/
theorem subdivide_result_segment_exceeds_max_length :
    shapeSubdivide ⟨[⟨0, 0, 0, 0, 0, 0⟩, ⟨12, 0, 0, 0, 0, 0⟩]⟩ ⟨[0, 1], [⟨0, 1⟩]⟩ 5 =
      (Store.mk [⟨0, 0, 0, 0, 0, 0⟩, ⟨12, 0, 0, 0, 0, 0⟩, ⟨6, 0, 0, 0, 0, 0⟩],
        Shape.mk [0, 1, 2] [⟨0, 2⟩, ⟨2, 1⟩]) ∧
    segLength (Store.mk [⟨0, 0, 0, 0, 0, 0⟩, ⟨12, 0, 0, 0, 0, 0⟩, ⟨6, 0, 0, 0, 0, 0⟩])
      ⟨0, 2⟩ = 6 ∧
    ¬((6 : ℚ) ≤ 5) := by
  have hsqrt : goSqrt 144 = 12 := by
    rw [show (144 : ℚ) = 12 * 12 from by norm_num]
    exact goSqrt_sq 12 (by norm_num)
  have hsqrt36 : goSqrt 36 = 6 := by
    rw [show (36 : ℚ) = 6 * 6 from by norm_num]
    exact goSqrt_sq 6 (by norm_num)
  have hround : goRound ((12 : ℚ) / 5) = 2 := by
    unfold goRound
    rw [if_pos (by norm_num)]
    norm_num
  refine ⟨?_, ?_, by norm_num⟩
  · simp only [shapeSubdivide, subdivideGo, subdivideSeg, deref, interiorPts, ptTranslated,
      consecutivePairs, List.getD_cons_zero, List.getD_cons_succ]
    norm_num [hsqrt, hround]
    refine ⟨?_, rfl, ?_⟩
    · rw [show Int.toNat 2 - 1 = 1 from rfl,
        show List.range 1 = [0] from rfl, List.map_cons, List.map_nil]
      norm_num
    · rw [show Int.toNat 2 - 1 = 1 from rfl, List.range'_one]
      rfl
  · simp only [segLength, deref, List.getD_cons_zero, List.getD_cons_succ]
    norm_num [hsqrt36]

/-- Witness for C4 at the claim's own instance: a segment of length 3 with
`maxLength = L/3 = 1` gets `count = 3`, and the even-chain specification
holds for its replacement (3 chain segments, 2 interior points). -/
theorem subdivide_replaces_segments_with_even_chains_witness :
    chainCount ⟨[⟨0, 0, 0, 0, 0, 0⟩, ⟨3, 0, 0, 0, 0, 0⟩]⟩ 1 ⟨0, 1⟩ = 3 ∧
    (∃ chains : List (List Nat × List Segment),
      (shapeSubdivide ⟨[⟨0, 0, 0, 0, 0, 0⟩, ⟨3, 0, 0, 0, 0, 0⟩]⟩
          ⟨[0, 1], [⟨0, 1⟩]⟩ 1).2.segments = (chains.map Prod.snd).flatten ∧
      ∀ k, k < ([(⟨0, 1⟩ : Segment)] : List Segment).length →
        evenChainAt (shapeSubdivide ⟨[⟨0, 0, 0, 0, 0, 0⟩, ⟨3, 0, 0, 0, 0, 0⟩]⟩
            ⟨[0, 1], [⟨0, 1⟩]⟩ 1).1
          ⟨[⟨0, 0, 0, 0, 0, 0⟩, ⟨3, 0, 0, 0, 0, 0⟩]⟩ 1
          (([(⟨0, 1⟩ : Segment)] : List Segment).getD k default)
          (chains.getD k ([], []))) := by
  constructor
  · have h9 : goSqrt 9 = 3 := by
      rw [show (9 : ℚ) = 3 * 3 from by norm_num]
      exact goSqrt_sq 3 (by norm_num)
    have hsl : segLength ⟨[⟨0, 0, 0, 0, 0, 0⟩, ⟨3, 0, 0, 0, 0, 0⟩]⟩ ⟨0, 1⟩ = 3 := by
      simp only [segLength, deref, List.getD_cons_zero, List.getD_cons_succ]
      norm_num [h9]
    unfold chainCount
    rw [hsl]
    unfold goRound
    rw [if_pos (by norm_num)]
    norm_num
  · obtain ⟨chains, h1, h2, h3, h4, h5⟩ :=
      subdivide_replaces_segments_with_even_chains
        ⟨[⟨0, 0, 0, 0, 0, 0⟩, ⟨3, 0, 0, 0, 0, 0⟩]⟩ ⟨[0, 1], [⟨0, 1⟩]⟩ 1 (by decide)
    exact ⟨chains, h3, h5⟩
